import Mathlib

/-!
Shallow embedding of the Pitsweeper propositional-logic engine
(`maze_clause.py` and `maze_knowledge_base.py`).

A `MazeProp` is an atomic proposition: a symbol paired with a grid
location.  A `MazeClause` stores a Python dict mapping propositions to
polarities together with a `valid` flag; we model the dict as a `Finset`
of (proposition, polarity) items.  A dict is functional (at most one
polarity per key); clauses actually produced by the Python constructor
satisfy the `MazeClause.WF` predicate below, and theorems that need
dict-functionality take it as a hypothesis.

Python `set`s of clauses are modelled as `Finset MazeClause` with
structural (item-level) equality, which is how the code's
`__hash__`/`__eq__` pair effectively deduplicates (hashing is over the
`(prop, polarity)` item set, so only clauses with identical item sets
and `valid` flags are ever unified by a Python set).
-/

/-- An atomic proposition: `(symbol, (x, y))`, e.g. `("P", (1, 1))`. -/
abbrev MazeProp := String × Int × Int

/-- A `MazeClause`: the dict `props` (as its set of key/value items)
together with the `valid` (tautology) flag. -/
structure MazeClause where
  props : Finset (MazeProp × Bool)
  valid : Bool
deriving DecidableEq

namespace MazeClause

/-- An item set is functional: at most one polarity per proposition key
(the defining property of a Python dict's item set). -/
def FunSet (s : Finset (MazeProp × Bool)) : Prop :=
  ∀ pb1 ∈ s, ∀ pb2 ∈ s, (pb1 : MazeProp × Bool).1 = (pb2 : MazeProp × Bool).1 → pb1.2 = pb2.2

instance (s : Finset (MazeProp × Bool)) : Decidable (FunSet s) := by
  unfold FunSet; infer_instance

/-- The prop dict is functional: at most one polarity per proposition key.
Every dict built by the Python code satisfies this. -/
def Functional (c : MazeClause) : Prop := FunSet c.props

instance (c : MazeClause) : Decidable c.Functional := by
  unfold Functional; infer_instance

/-- Well-formed clause: the dict is functional, and a valid clause has had
its props cleared (as the constructor guarantees). -/
def WF (c : MazeClause) : Prop :=
  c.Functional ∧ (c.valid = true → c.props = ∅)

instance (c : MazeClause) : Decidable c.WF := by
  unfold WF; infer_instance

/-- The loop body of `MazeClause.__init__`: fold the input list of
`(prop, truth_value)` pairs into the dict `acc`; on meeting a proposition
already present with the opposite polarity, set `valid`, clear the dict
and stop. -/
def buildProps : List (MazeProp × Bool) → Finset (MazeProp × Bool) → MazeClause
  | [], acc => ⟨acc, false⟩
  | (p, tv) :: rest, acc =>
    if (p, tv) ∈ acc then
      -- key present with the same truth value: no-op
      buildProps rest acc
    else if (p, !tv) ∈ acc then
      -- both P and ¬P found: valid clause, dict cleared, early return
      ⟨∅, true⟩
    else
      buildProps rest (insert (p, tv) acc)

/-- `MazeClause(props)`: the Python constructor. -/
def construct (l : List (MazeProp × Bool)) : MazeClause :=
  buildProps l ∅

/-- `get_prop`: the truth value of `p` in the clause, `none` if absent. -/
def get_prop (c : MazeClause) (p : MazeProp) : Option Bool :=
  if (p, true) ∈ c.props then some true
  else if (p, false) ∈ c.props then some false
  else none

/-- `is_valid`. -/
def is_valid (c : MazeClause) : Bool := c.valid

/-- `is_empty`: not valid and no props — the contradiction sentinel. -/
def is_empty (c : MazeClause) : Bool := !c.valid && c.props.card == 0

/-- The empty clause `MazeClause([])`. -/
def emptyClause : MazeClause := ⟨∅, false⟩

/-- The set of proposition keys of the dict (`frozenset(self.props)` in
Python iterates the dict's keys). -/
def pyKeys (c : MazeClause) : Finset MazeProp := c.props.image Prod.fst

/-- `__eq__`: compares the key sets (`frozenset(self.props)`) and the
`valid` flags — polarities are not compared. -/
def pyEq (c1 c2 : MazeClause) : Bool :=
  decide (pyKeys c1 = pyKeys c2) && (c1.valid == c2.valid)

/-- `__hash__` hashes `(frozenset(self.props.items()), self.valid)`:
the value Python's hash function is applied to is determined by the
item set (keys with polarities) together with the `valid` flag.  We
model the hash by this input pair. -/
def pyHashKey (c : MazeClause) : Finset (MazeProp × Bool) × Bool :=
  (c.props, c.valid)

/-- The complementary items found by `resolve`'s first loop: items of
`c1` whose key appears in `c2` with the opposite truth value. -/
def complementary (c1 c2 : MazeClause) : Finset (MazeProp × Bool) :=
  c1.props.filter (fun pb => (pb.1, !pb.2) ∈ c2.props)

/-- Python dict merge `{**m1, **m2}` on item sets: all of `m2`, plus the
items of `m1` whose key does not occur in `m2`. -/
def dictMerge (m1 m2 : Finset (MazeProp × Bool)) : Finset (MazeProp × Bool) :=
  m1.filter (fun pb => (pb.1, true) ∉ m2 ∧ (pb.1, false) ∉ m2) ∪ m2

/-- `MazeClause.resolve`: if the number of complementary propositions is
not exactly one, return the empty set; otherwise merge the two dicts,
delete the complementary proposition's key, run the constructor on the
result, and keep it unless it is valid.  (Deleting the single
complementary key is expressed as filtering out the keys of the
complementary set, which has exactly one element on this branch; the
constructor applied to the items of a functional dict yields those items
with `valid = false` — see `buildProps_of_functional` — so the resolvent
is written directly in that form, and the code's final `valid` check is
retained.) -/
def resolve (c1 c2 : MazeClause) : Finset MazeClause :=
  let comp := complementary c1 c2
  if comp.card ≠ 1 then ∅
  else
    let compKeys := comp.image Prod.fst
    let newProps := (dictMerge c1.props c2.props).filter (fun pb => pb.1 ∉ compKeys)
    let newClause : MazeClause := ⟨newProps, false⟩
    if newClause.valid then ∅ else {newClause}

/-- Truth of a clause under a valuation of the propositions: a valid
clause is True; otherwise the clause is the disjunction of its
polarity-tagged propositions. -/
def Sat (v : MazeProp → Bool) (c : MazeClause) : Prop :=
  c.valid = true ∨ ∃ pb ∈ c.props, v (pb : MazeProp × Bool).1 = pb.2

instance (v : MazeProp → Bool) (c : MazeClause) : Decidable (Sat v c) := by
  unfold Sat; infer_instance

end MazeClause

namespace MazeKnowledgeBase

open MazeClause

/-- The negated query built at the top of `ask`: flip the truth value of
every proposition of the query's dict and run the constructor on the
items.  (A flipped functional dict is functional, so the constructor
returns exactly the flipped items with `valid = false`.) -/
def negated (q : MazeClause) : MazeClause :=
  ⟨q.props.image (fun pb => (pb.1, !pb.2)), false⟩

/-- All clauses produced by one round of `ask`'s inner `for` loop:
resolvents of every pair of distinct clauses of the working set (the
Python loop visits each unordered pair once; `resolve` is symmetric on
well-formed clauses — see `resolve_comm` — so the union over ordered
distinct pairs is the same set). -/
def allResolvents (s : Finset MazeClause) : Finset MazeClause :=
  s.biUnion (fun c1 => s.biUnion (fun c2 =>
    if c1 ≠ c2 then MazeClause.resolve c1 c2 else ∅))

/-- The `while True` loop of `ask`, with explicit fuel (the Python loop
has no bound; `askLoop_terminates` shows the fuel chosen in `askRaw` is
always enough).  `temp` is `temp_kb`, `acc` is the persistent `new` set.
One iteration: if some pair resolves to the empty clause, return `true`;
if no clause outside the working set was produced, return `false`;
otherwise grow the working set and repeat. -/
def askLoop : Nat → Finset MazeClause → Finset MazeClause → Option Bool
  | 0, _, _ => none
  | fuel + 1, temp, acc =>
    let res := allResolvents temp
    if emptyClause ∈ res then some true
    else
      let acc2 := acc ∪ res
      if acc2 ⊆ temp then some false
      else askLoop fuel (temp ∪ acc2) acc2

/-- Every `(prop, truth value)` item appearing in some clause of `s`. -/
def kbItems (s : Finset MazeClause) : Finset (MazeProp × Bool) :=
  s.biUnion MazeClause.props

/-- Fuel sufficient for `askLoop` on working sets drawn from the item
universe of `s`: more than the number of clauses over those items. -/
def askBound (s : Finset MazeClause) : Nat :=
  2 * 2 ^ (kbItems s).card + 1

/-- `ask` on a clause set: add the negated query to a copy of the
stored clauses and saturate. -/
def askRaw (clauses : Finset MazeClause) (query : MazeClause) : Option Bool :=
  let temp0 := insert (negated query) clauses
  askLoop (askBound temp0) temp0 ∅

/-- `ask`, as a total Boolean function (`askLoop_terminates` shows the
default is never taken). -/
def ask (clauses : Finset MazeClause) (query : MazeClause) : Bool :=
  (askRaw clauses query).getD false

/-- A knowledge store's conjunction of clauses holds under `v`. -/
def StoreSat (v : MazeProp → Bool) (clauses : Finset MazeClause) : Prop :=
  ∀ c ∈ clauses, MazeClause.Sat v c

/-- The store entails the query clause: every valuation satisfying all
stored clauses satisfies the query. -/
def Entails (clauses : Finset MazeClause) (query : MazeClause) : Prop :=
  ∀ v : MazeProp → Bool, StoreSat v clauses → MazeClause.Sat v query

end MazeKnowledgeBase

/-- The `MazeKnowledgeBase` object: its mutable state is the set of
stored clauses. -/
structure MazeKB where
  clauses : Finset MazeClause

namespace MazeKB

/-- `tell`: adds the clause to the store (state transformer). -/
def tell (kb : MazeKB) (c : MazeClause) : MazeKB :=
  ⟨insert c kb.clauses⟩

/-- The `ask` method as a state transformer: it builds its working set
from a deep copy of `self.clauses` (so the loop's mutations touch only
`temp_kb`) and never assigns to `self.clauses`; the resulting object
state is the input state. -/
def askMethod (kb : MazeKB) (query : MazeClause) : Bool × MazeKB :=
  (MazeKnowledgeBase.ask kb.clauses query, ⟨kb.clauses⟩)

end MazeKB

namespace MazeKnowledgeBase

open MazeClause

/-- The unit fact clause `MazeClause([(("P", loc), is_pit)])` built by
`get_simplified_clauses`. -/
def sani_clause (loc : Int × Int) (isPit : Bool) : MazeClause :=
  MazeClause.construct [(("P", loc), isPit)]

/-- The `for clause in clauses` loop of `get_simplified_clauses`, over an
explicit iteration order (Python iterates a `set` in an unspecified
order).  Returns the accumulated `(to_add, to_rem)` pair: length-1
clauses are skipped; a clause already containing the unit fact as a
disjunct is marked for removal and the loop `break`s; otherwise the
clause's resolvents against the unit fact are accumulated. -/
def simpLoop (loc : Int × Int) (isPit : Bool) :
    List MazeClause → Finset MazeClause × Finset MazeClause
  | [] => (∅, ∅)
  | c :: rest =>
    if c.props.card = 1 then simpLoop loc isPit rest
    else if c.get_prop ("P", loc) = some isPit then (∅, {c})
    else
      let (ta, tr) := simpLoop loc isPit rest
      (ta ∪ MazeClause.resolve c (sani_clause loc isPit), tr)

/-- `get_simplified_clauses`, with the set's iteration order passed
explicitly as `order` (intended to enumerate `clauses`): the input set,
plus the accumulated resolvents, minus the removed clauses. -/
def get_simplified_clauses (clauses : Finset MazeClause) (order : List MazeClause)
    (loc : Int × Int) (isPit : Bool) : Finset MazeClause :=
  let (ta, tr) := simpLoop loc isPit order
  (clauses ∪ ta) \ tr

/-- `simplify_from_known_locs` / `simplify_self`: one
`get_simplified_clauses` pass per location of `known_pits ∪ known_safe`,
each pass consuming the previous result.  The iteration order of the
location set and the enumeration order of each intermediate clause set
are passed explicitly: each list entry is `((loc, loc ∈ known_pits),
order of the then-current clause set)`. -/
def simplify_locs (clauses : Finset MazeClause) :
    List (((Int × Int) × Bool) × List MazeClause) → Finset MazeClause
  | [] => clauses
  | ((loc, isPit), ord) :: rest =>
      simplify_locs (get_simplified_clauses clauses ord loc isPit) rest

/-- `order` is a faithful iteration order of the finite set `s`. -/
def Enumerates (order : List MazeClause) (s : Finset MazeClause) : Prop :=
  order.Nodup ∧ order.toFinset = s

instance (order : List MazeClause) (s : Finset MazeClause) :
    Decidable (Enumerates order s) := by
  unfold Enumerates; infer_instance

/-- The resolvents that one break-free pass of `get_simplified_clauses`
accumulates into `to_add`: for every stored clause that is not of
length 1, its resolvents against the unit fact clause.  (Used to state
what the pass computes when no clause triggers the removal `break`.) -/
def passAdds (s : Finset MazeClause) (loc : Int × Int) (isPit : Bool) :
    Finset MazeClause :=
  s.biUnion (fun c =>
    if c.props.card = 1 then ∅ else MazeClause.resolve c (sani_clause loc isPit))

end MazeKnowledgeBase

/-! ### Concrete propositions and clauses used in the spec's examples -/

/-- The proposition `P(1,1)` ("location (1,1) is a pit"). -/
def p11 : MazeProp := ("P", (1, 1))

/-- The proposition `P(2,1)`. -/
def p21 : MazeProp := ("P", (2, 1))

/-- The proposition `P(2,2)`. -/
def p22 : MazeProp := ("P", (2, 2))

/-- The proposition `P(3,3)`. -/
def p33 : MazeProp := ("P", (3, 3))

/-- The clause `P(1,1) ∨ P(2,1)`. -/
def ex_c11or21 : MazeClause := MazeClause.construct [(p11, true), (p21, true)]

/-- The unit clause `¬P(1,1)`. -/
def ex_not11 : MazeClause := MazeClause.construct [(p11, false)]

/-- The unit clause `P(2,1)`. -/
def ex_q21 : MazeClause := MazeClause.construct [(p21, true)]

/-- The unit clause `P(1,1)`. -/
def ex_unit11 : MazeClause := MazeClause.construct [(p11, true)]

/-- The clause `P(1,1) ∨ ¬P(2,1)` from the spec's simplification example. -/
def ex_c11orNot21 : MazeClause := MazeClause.construct [(p11, true), (p21, false)]

/-- The clause `P(1,1) ∨ P(2,2)`. -/
def ex_c11or22 : MazeClause := MazeClause.construct [(p11, true), (p22, true)]

/-- The clause `P(1,1) ∨ P(3,3)`. -/
def ex_c11or33 : MazeClause := MazeClause.construct [(p11, true), (p33, true)]

/-- The clause `¬P(1,1) ∨ P(2,1)`. -/
def ex_not11or21 : MazeClause := MazeClause.construct [(p11, false), (p21, true)]

/-- The clause `¬P(2,1) ∨ P(3,3)` (a resolution partner for `ex_c11or21`). -/
def ex_not21or33 : MazeClause := MazeClause.construct [(p21, false), (p33, true)]

/-- An input list carrying `P(1,1)` with both polarities. -/
def ex_taut_list : List (MazeProp × Bool) := [(p11, true), (p33, true), (p11, false)]

/-! ### Constructor lemmas -/

namespace MazeClause

theorem funSet_insert {acc : Finset (MazeProp × Bool)} {q : MazeProp} {tv : Bool}
    (hacc : FunSet acc) (h1 : (q, tv) ∉ acc) (h2 : (q, !tv) ∉ acc) :
    FunSet (insert (q, tv) acc) := by
  have hkeyfree : ∀ b : Bool, (q, b) ∉ acc := by
    intro b hb
    cases b <;> cases tv <;> simp_all
  intro pb1 hpb1 pb2 hpb2 hkey
  rcases Finset.mem_insert.1 hpb1 with h1' | h1' <;>
    rcases Finset.mem_insert.1 hpb2 with h2' | h2'
  · rw [h1', h2']
  · exfalso
    apply hkeyfree pb2.2
    have hq : pb2.1 = q := by rw [← hkey, h1']
    rw [← hq]
    simpa using h2'
  · exfalso
    apply hkeyfree pb1.2
    have hq : pb1.1 = q := by rw [hkey, h2']
    rw [← hq]
    simpa using h1'
  · exact hacc pb1 h1' pb2 h2' hkey

/-- If the input (together with the accumulator dict) carries some
proposition with both polarities, the constructor loop ends in the
valid state with the dict cleared. -/
theorem buildProps_valid :
    ∀ (l : List (MazeProp × Bool)) (acc : Finset (MazeProp × Bool)),
    FunSet acc → ∀ p : MazeProp,
    ((p, true) ∈ l ∨ (p, true) ∈ acc) → ((p, false) ∈ l ∨ (p, false) ∈ acc) →
    buildProps l acc = ⟨∅, true⟩
  | [], acc, hacc, p, ht, hf => by
    simp only [List.not_mem_nil, false_or] at ht hf
    exact absurd (hacc _ ht _ hf rfl) (by simp)
  | (q, tv) :: rest, acc, hacc, p, ht, hf => by
    by_cases hmem : (q, tv) ∈ acc
    · rw [buildProps, if_pos hmem]
      refine buildProps_valid rest acc hacc p ?_ ?_
      · rcases ht with h | h
        · rcases List.mem_cons.1 h with h | h
          · exact Or.inr (h ▸ hmem)
          · exact Or.inl h
        · exact Or.inr h
      · rcases hf with h | h
        · rcases List.mem_cons.1 h with h | h
          · exact Or.inr (h ▸ hmem)
          · exact Or.inl h
        · exact Or.inr h
    · by_cases hneg : (q, !tv) ∈ acc
      · rw [buildProps, if_neg hmem, if_pos hneg]
      · rw [buildProps, if_neg hmem, if_neg hneg]
        refine buildProps_valid rest (insert (q, tv) acc)
          (funSet_insert hacc hmem hneg) p ?_ ?_
        · rcases ht with h | h
          · rcases List.mem_cons.1 h with h | h
            · exact Or.inr (Finset.mem_insert.2 (Or.inl h))
            · exact Or.inl h
          · exact Or.inr (Finset.mem_insert.2 (Or.inr h))
        · rcases hf with h | h
          · rcases List.mem_cons.1 h with h | h
            · exact Or.inr (Finset.mem_insert.2 (Or.inl h))
            · exact Or.inl h
          · exact Or.inr (Finset.mem_insert.2 (Or.inr h))

/-- On an input whose proposition keys are pairwise distinct, the
constructor loop simply collects the items, with `valid = false`. -/
theorem buildProps_nodupKeys :
    ∀ (l : List (MazeProp × Bool)) (acc : Finset (MazeProp × Bool)),
    (l.map Prod.fst).Nodup →
    (∀ pb ∈ l, ∀ b : Bool, ((pb : MazeProp × Bool).1, b) ∉ acc) →
    buildProps l acc = ⟨acc ∪ l.toFinset, false⟩
  | [], acc, _, _ => by simp [buildProps]
  | (q, tv) :: rest, acc, hnd, hfresh => by
    have hmem : (q, tv) ∉ acc := hfresh (q, tv) (List.mem_cons_self _ _) tv
    have hneg : (q, !tv) ∉ acc := hfresh (q, tv) (List.mem_cons_self _ _) (!tv)
    rw [buildProps, if_neg hmem, if_neg hneg,
      buildProps_nodupKeys rest (insert (q, tv) acc)
        ((List.nodup_cons.1 (by simpa using hnd)).2) ?_]
    · simp [Finset.union_comm, Finset.union_assoc, Finset.union_left_comm]
    · intro pb hpb b hb
      rcases Finset.mem_insert.1 hb with h | h
      · have : (pb : MazeProp × Bool).1 = q := congrArg Prod.fst h
        have hq : q ∉ rest.map Prod.fst := (List.nodup_cons.1 (by simpa using hnd)).1
        exact hq (this ▸ List.mem_map_of_mem Prod.fst hpb)
      · exact hfresh pb (List.mem_cons_of_mem _ hpb) b h

/-- The constructor on a list with pairwise distinct keys just collects
the items (in particular, it is never valid: this is why `resolve`'s
final tautology check never fires, the merged dict having one polarity
per key). -/
theorem construct_nodupKeys (l : List (MazeProp × Bool))
    (hnd : (l.map Prod.fst).Nodup) : construct l = ⟨l.toFinset, false⟩ := by
  rw [construct, buildProps_nodupKeys l ∅ hnd (by simp)]
  simp

end MazeClause

/-! ### Resolution lemmas -/

namespace MazeClause

theorem mem_complementary {c1 c2 : MazeClause} {pb : MazeProp × Bool} :
    pb ∈ complementary c1 c2 ↔ pb ∈ c1.props ∧ (pb.1, !pb.2) ∈ c2.props := by
  simp [complementary]

theorem mem_dictMerge {m1 m2 : Finset (MazeProp × Bool)} {pb : MazeProp × Bool} :
    pb ∈ dictMerge m1 m2 ↔
      (pb ∈ m1 ∧ (pb.1, true) ∉ m2 ∧ (pb.1, false) ∉ m2) ∨ pb ∈ m2 := by
  simp [dictMerge, Finset.mem_union, Finset.mem_filter]

theorem resolve_of_card_ne {c1 c2 : MazeClause}
    (h : (complementary c1 c2).card ≠ 1) : resolve c1 c2 = ∅ := by
  simp [resolve, h]

theorem resolve_of_card_eq {c1 c2 : MazeClause}
    (h : (complementary c1 c2).card = 1) :
    resolve c1 c2 =
      {⟨(dictMerge c1.props c2.props).filter
          (fun pb => pb.1 ∉ (complementary c1 c2).image Prod.fst), false⟩} := by
  simp [resolve, h]

/-- Once all keys of the complementary set are deleted, the Python dict
merge coincides with the plain union of the two item sets: the only keys
on which the two dicts can disagree are complementary ones. -/
theorem merge_filter_eq_union_filter (c1 c2 : MazeClause) :
    (dictMerge c1.props c2.props).filter
        (fun pb => pb.1 ∉ (complementary c1 c2).image Prod.fst)
    = (c1.props ∪ c2.props).filter
        (fun pb => pb.1 ∉ (complementary c1 c2).image Prod.fst) := by
  ext ⟨p, b⟩
  simp only [Finset.mem_filter, mem_dictMerge, Finset.mem_union]
  constructor
  · rintro ⟨h1, h2⟩
    exact ⟨by tauto, h2⟩
  · rintro ⟨h1, h2⟩
    refine ⟨?_, h2⟩
    rcases h1 with hm1 | hm2
    · by_cases ht2 : (p, b) ∈ c2.props
      · exact Or.inr ht2
      · by_cases hneg : (p, !b) ∈ c2.props
        · exact absurd (Finset.mem_image_of_mem Prod.fst
            (mem_complementary.2 ⟨hm1, hneg⟩)) h2
        · left
          cases b
          · exact ⟨hm1, by simpa using hneg, ht2⟩
          · exact ⟨hm1, ht2, by simpa using hneg⟩
    · exact Or.inr hm2

/-- The complementary set seen from the swapped argument order is the
polarity-flip of the original complementary set. -/
theorem complementary_swap (c1 c2 : MazeClause) :
    complementary c2 c1 = (complementary c1 c2).image (fun pb => (pb.1, !pb.2)) := by
  ext ⟨p, b⟩
  constructor
  · intro h
    rw [mem_complementary] at h
    refine Finset.mem_image.2 ⟨(p, !b), ?_, by simp⟩
    rw [mem_complementary]
    exact ⟨h.2, by simpa using h.1⟩
  · intro h
    obtain ⟨⟨q, b'⟩, hq, heq⟩ := Finset.mem_image.1 h
    rw [mem_complementary] at hq ⊢
    have heq' : (q, !b') = (p, b) := heq
    have h1 : q = p := congrArg Prod.fst heq'
    have h2 : (!b') = b := congrArg Prod.snd heq'
    subst h1
    subst h2
    exact ⟨hq.2, by simpa using hq.1⟩

theorem complementary_swap_card (c1 c2 : MazeClause) :
    (complementary c2 c1).card = (complementary c1 c2).card := by
  rw [complementary_swap]
  refine Finset.card_image_of_injective _ ?_
  intro a b hab
  have hab' : (a.1, !a.2) = (b.1, !b.2) := hab
  obtain ⟨h1, h2⟩ := Prod.mk.inj hab'
  exact Prod.ext h1 (by simpa using h2)

theorem complementary_swap_keys (c1 c2 : MazeClause) :
    (complementary c2 c1).image Prod.fst = (complementary c1 c2).image Prod.fst := by
  rw [complementary_swap, Finset.image_image]
  rfl

/-- `resolve` is commutative: the merge is taken in argument order, but
the two dicts can only disagree on complementary keys, which are deleted. -/
theorem resolve_comm (c1 c2 : MazeClause) : resolve c1 c2 = resolve c2 c1 := by
  by_cases h : (complementary c1 c2).card = 1
  · have h' : (complementary c2 c1).card = 1 := by rw [complementary_swap_card, h]
    rw [resolve_of_card_eq h, resolve_of_card_eq h',
      merge_filter_eq_union_filter c1 c2, merge_filter_eq_union_filter c2 c1,
      complementary_swap_keys, Finset.union_comm]
  · have h' : (complementary c2 c1).card ≠ 1 := by
      rw [complementary_swap_card]; exact h
    rw [resolve_of_card_ne h, resolve_of_card_ne h']

end MazeClause

/-! ### Resolvents: shape, well-formedness, soundness -/

namespace MazeClause

theorem mem_resolve {c1 c2 r : MazeClause} :
    r ∈ resolve c1 c2 ↔ (complementary c1 c2).card = 1 ∧
      r = ⟨(dictMerge c1.props c2.props).filter
          (fun pb => pb.1 ∉ (complementary c1 c2).image Prod.fst), false⟩ := by
  by_cases h : (complementary c1 c2).card = 1
  · rw [resolve_of_card_eq h]
    simp [h]
  · rw [resolve_of_card_ne h]
    simp [h]

theorem resolve_props_subset {c1 c2 r : MazeClause} (h : r ∈ resolve c1 c2) :
    r.props ⊆ c1.props ∪ c2.props := by
  obtain ⟨-, rfl⟩ := mem_resolve.1 h
  intro pb hpb
  rcases mem_dictMerge.1 (Finset.mem_filter.1 hpb).1 with ⟨h1, -⟩ | h2
  · exact Finset.mem_union_left _ h1
  · exact Finset.mem_union_right _ h2

theorem resolve_valid_false {c1 c2 r : MazeClause} (h : r ∈ resolve c1 c2) :
    r.valid = false := by
  obtain ⟨-, rfl⟩ := mem_resolve.1 h
  rfl

theorem funSet_subset {s t : Finset (MazeProp × Bool)}
    (h : FunSet s) (hts : t ⊆ s) : FunSet t :=
  fun pb1 h1 pb2 h2 hk => h pb1 (hts h1) pb2 (hts h2) hk

theorem funSet_dictMerge {m1 m2 : Finset (MazeProp × Bool)}
    (h1 : FunSet m1) (h2 : FunSet m2) : FunSet (dictMerge m1 m2) := by
  intro pb1 hpb1 pb2 hpb2 hkey
  rcases mem_dictMerge.1 hpb1 with ⟨ha1, hb1, hc1⟩ | ha1 <;>
    rcases mem_dictMerge.1 hpb2 with ⟨ha2, hb2, hc2⟩ | ha2
  · exact h1 pb1 ha1 pb2 ha2 hkey
  · exfalso
    have hm : (pb1.1, pb2.2) ∈ m2 := by rw [hkey]; simpa using ha2
    cases hpb : pb2.2 <;> rw [hpb] at hm
    · exact hc1 hm
    · exact hb1 hm
  · exfalso
    have hm : (pb2.1, pb1.2) ∈ m2 := by rw [← hkey]; simpa using ha1
    cases hpb : pb1.2 <;> rw [hpb] at hm
    · exact hc2 hm
    · exact hb2 hm
  · exact h2 pb1 ha1 pb2 ha2 hkey

/-- A resolvent of two clauses with functional dicts is well-formed. -/
theorem resolve_WF {c1 c2 r : MazeClause}
    (h1 : c1.Functional) (h2 : c2.Functional) (h : r ∈ resolve c1 c2) : r.WF := by
  obtain ⟨-, rfl⟩ := mem_resolve.1 h
  exact ⟨funSet_subset (funSet_dictMerge h1 h2) (Finset.filter_subset _ _),
    by intro hv; cases hv⟩

/-- Soundness of one resolution step: a resolvent is entailed by its two
parent clauses. -/
theorem resolve_sound {c1 c2 r : MazeClause} (w1 : c1.WF) (w2 : c2.WF)
    (h : r ∈ resolve c1 c2) (v : MazeProp → Bool)
    (s1 : Sat v c1) (s2 : Sat v c2) : Sat v r := by
  obtain ⟨hc, rfl⟩ := mem_resolve.1 h
  obtain ⟨⟨p0, b0⟩, hcomp⟩ := Finset.card_eq_one.1 hc
  have h0 : (p0, b0) ∈ c1.props ∧ (p0, !b0) ∈ c2.props := by
    rw [← @mem_complementary c1 c2 (p0, b0), hcomp]
    exact Finset.mem_singleton_self _
  have hkeys : (complementary c1 c2).image Prod.fst = {p0} := by
    rw [hcomp]; rfl
  -- c1 and c2 are not valid: they contain a proposition
  have hv1 : c1.valid = false := by
    cases hcv : c1.valid
    · rfl
    · exact absurd (w1.2 hcv ▸ h0.1) (by simp)
  have hv2 : c2.valid = false := by
    cases hcv : c2.valid
    · rfl
    · exact absurd (w2.2 hcv ▸ h0.2) (by simp)
  obtain ⟨⟨q1, a1⟩, hq1, hva1⟩ : ∃ pb ∈ c1.props, v (pb : MazeProp × Bool).1 = pb.2 := by
    rcases s1 with h | h
    · rw [hv1] at h; cases h
    · exact h
  obtain ⟨⟨q2, a2⟩, hq2, hva2⟩ : ∃ pb ∈ c2.props, v (pb : MazeProp × Bool).1 = pb.2 := by
    rcases s2 with h | h
    · rw [hv2] at h; cases h
    · exact h
  right
  by_cases hvp : v p0 = b0
  · -- the satisfied literal of c2 is not the complementary one; it survives
    have hq2ne : q2 ≠ p0 := by
      intro hqe
      subst hqe
      have : a2 = !b0 := w2.1 _ hq2 _ h0.2 rfl
      rw [this] at hva2
      rw [hva2] at hvp
      cases b0 <;> simp_all
    refine ⟨(q2, a2), Finset.mem_filter.2 ⟨mem_dictMerge.2 (Or.inr hq2), ?_⟩, hva2⟩
    rw [hkeys]
    simpa using hq2ne
  · -- v p0 = !b0: the satisfied literal of c1 survives the merge
    have hq1ne : q1 ≠ p0 := by
      intro hqe
      subst hqe
      have : a1 = b0 := w1.1 _ hq1 _ h0.1 rfl
      rw [this] at hva1
      exact hvp hva1
    have hmem : (q1, a1) ∈ dictMerge c1.props c2.props := by
      by_cases hin2 : (q1, a1) ∈ c2.props
      · exact mem_dictMerge.2 (Or.inr hin2)
      · have hnotneg : (q1, !a1) ∉ c2.props := by
          intro hcon
          have hcc : (q1, a1) ∈ complementary c1 c2 :=
            mem_complementary.2 ⟨hq1, hcon⟩
          rw [hcomp] at hcc
          exact hq1ne (congrArg Prod.fst (Finset.mem_singleton.1 hcc))
        refine mem_dictMerge.2 (Or.inl ⟨hq1, ?_, ?_⟩)
        · cases ha : a1
          · rw [ha] at hnotneg; simpa using hnotneg
          · rw [ha] at hin2; simpa using hin2
        · cases ha : a1
          · rw [ha] at hin2; simpa using hin2
          · rw [ha] at hnotneg; simpa using hnotneg
    refine ⟨(q1, a1), Finset.mem_filter.2 ⟨hmem, ?_⟩, hva1⟩
    rw [hkeys]
    simpa using hq1ne

end MazeClause

/-! ### The ask loop: round characterization and termination -/

namespace MazeKnowledgeBase

open MazeClause

theorem mem_allResolvents {s : Finset MazeClause} {r : MazeClause} :
    r ∈ allResolvents s ↔
      ∃ c1 ∈ s, ∃ c2 ∈ s, c1 ≠ c2 ∧ r ∈ MazeClause.resolve c1 c2 := by
  simp only [allResolvents, Finset.mem_biUnion]
  constructor
  · rintro ⟨c1, h1, c2, h2, hr⟩
    by_cases h : c1 = c2
    · rw [if_neg (by simpa using h)] at hr
      simp at hr
    · rw [if_pos h] at hr
      exact ⟨c1, h1, c2, h2, h, hr⟩
  · rintro ⟨c1, h1, c2, h2, hne, hr⟩
    exact ⟨c1, h1, c2, h2, by rw [if_pos hne]; exact hr⟩

/-- The finite universe of clauses whose props are drawn from the item
set `I`. -/
def clausesOver (I : Finset (MazeProp × Bool)) : Finset MazeClause :=
  I.powerset.image (fun s => ⟨s, false⟩) ∪ I.powerset.image (fun s => ⟨s, true⟩)

theorem mem_clausesOver {I : Finset (MazeProp × Bool)} {c : MazeClause} :
    c ∈ clausesOver I ↔ c.props ⊆ I := by
  simp only [clausesOver, Finset.mem_union, Finset.mem_image, Finset.mem_powerset]
  constructor
  · rintro (⟨s, hs, rfl⟩ | ⟨s, hs, rfl⟩) <;> exact hs
  · intro h
    cases hcv : c.valid
    · exact Or.inl ⟨c.props, h, by rw [← hcv]⟩
    · exact Or.inr ⟨c.props, h, by rw [← hcv]⟩

theorem card_clausesOver (I : Finset (MazeProp × Bool)) :
    (clausesOver I).card ≤ 2 * 2 ^ I.card := by
  calc (clausesOver I).card
      ≤ (I.powerset.image (fun s => (⟨s, false⟩ : MazeClause))).card
        + (I.powerset.image (fun s => (⟨s, true⟩ : MazeClause))).card :=
        Finset.card_union_le _ _
    _ ≤ I.powerset.card + I.powerset.card :=
        Nat.add_le_add (Finset.card_image_le) (Finset.card_image_le)
    _ = 2 * 2 ^ I.card := by rw [Finset.card_powerset]; ring

theorem allResolvents_subset_clausesOver {I : Finset (MazeProp × Bool)}
    {s : Finset MazeClause} (h : s ⊆ clausesOver I) :
    allResolvents s ⊆ clausesOver I := by
  intro r hr
  obtain ⟨c1, h1, c2, h2, -, hr⟩ := mem_allResolvents.1 hr
  rw [mem_clausesOver]
  exact (MazeClause.resolve_props_subset hr).trans
    (Finset.union_subset (mem_clausesOver.1 (h h1)) (mem_clausesOver.1 (h h2)))

/-- Termination of the saturation loop: on working sets drawn from a
finite clause universe, enough fuel always yields an answer, because
every round that does not return strictly enlarges the working set. -/
theorem askLoop_ne_none :
    ∀ (fuel : Nat) (temp acc : Finset MazeClause) (I : Finset (MazeProp × Bool)),
    temp ⊆ clausesOver I → acc ⊆ clausesOver I →
    (clausesOver I).card < fuel + temp.card →
    askLoop fuel temp acc ≠ none
  | 0, temp, _, I, htemp, _, hcard => by
    exact absurd (Finset.card_le_card htemp) (by omega)
  | fuel + 1, temp, acc, I, htemp, hacc, hcard => by
    simp only [askLoop]
    by_cases h1 : emptyClause ∈ allResolvents temp
    · rw [if_pos h1]
      simp
    · rw [if_neg h1]
      by_cases h2 : acc ∪ allResolvents temp ⊆ temp
      · rw [if_pos h2]
        simp
      · rw [if_neg h2]
        have hres : allResolvents temp ⊆ clausesOver I :=
          allResolvents_subset_clausesOver htemp
        have hacc2 : acc ∪ allResolvents temp ⊆ clausesOver I :=
          Finset.union_subset hacc hres
        have htemp2 : temp ∪ (acc ∪ allResolvents temp) ⊆ clausesOver I :=
          Finset.union_subset htemp hacc2
        have hgrow : temp ⊂ temp ∪ (acc ∪ allResolvents temp) := by
          rw [Finset.ssubset_def]
          refine ⟨Finset.subset_union_left, fun hcon => h2 ?_⟩
          exact Finset.union_subset_iff.1 hcon |>.2
        have hcard2 : temp.card < (temp ∪ (acc ∪ allResolvents temp)).card :=
          Finset.card_lt_card hgrow
        exact askLoop_ne_none fuel _ _ I htemp2 hacc2 (by omega)

/-- `ask` always terminates with a definite answer at the fuel chosen in
`askRaw`. -/
theorem askRaw_isSome (clauses : Finset MazeClause) (q : MazeClause) :
    ∃ b : Bool, askRaw clauses q = some b := by
  have h1 : insert (negated q) clauses ⊆
      clausesOver (kbItems (insert (negated q) clauses)) := by
    intro c hc
    exact mem_clausesOver.2 (fun pb hpb => Finset.mem_biUnion.2 ⟨c, hc, hpb⟩)
  have h3 := card_clausesOver (kbItems (insert (negated q) clauses))
  have h4 := askLoop_ne_none (askBound (insert (negated q) clauses))
    (insert (negated q) clauses) ∅ (kbItems (insert (negated q) clauses))
    h1 (Finset.empty_subset _) (by unfold askBound; omega)
  rw [askRaw]
  cases h : askLoop (askBound (insert (negated q) clauses))
      (insert (negated q) clauses) ∅ with
  | none => exact absurd h h4
  | some b => exact ⟨b, rfl⟩

end MazeKnowledgeBase

/-! ### Model existence for resolution-closed clause sets -/

namespace MazeKnowledgeBase

open MazeClause

/-- The proposition keys occurring anywhere in a clause set. -/
def atomKeys (S : Finset MazeClause) : Finset MazeProp :=
  (kbItems S).image Prod.fst

theorem not_sat_emptyClause (v : MazeProp → Bool) : ¬ MazeClause.Sat v emptyClause := by
  simp [MazeClause.Sat, emptyClause]

theorem eq_emptyClause {c : MazeClause} (h1 : c.props = ∅) (h2 : c.valid = false) :
    c = emptyClause := by
  cases c
  simp_all [emptyClause]

theorem mem_kbItems {S : Finset MazeClause} {pb : MazeProp × Bool} :
    pb ∈ kbItems S ↔ ∃ c ∈ S, pb ∈ c.props := by
  simp [kbItems]

/-- A clause set with no atoms at all is satisfied by any valuation,
provided it does not contain the empty clause. -/
theorem storeSat_of_no_atoms {S : Finset MazeClause}
    (hempty : emptyClause ∉ S)
    (h : atomKeys S = ∅) : ∃ v, StoreSat v S := by
  refine ⟨fun _ => false, fun c hc => ?_⟩
  have hprops : c.props = ∅ := by
    by_contra hne
    obtain ⟨pb, hpb⟩ := Finset.nonempty_iff_ne_empty.2 hne
    have : pb.1 ∈ atomKeys S :=
      Finset.mem_image_of_mem Prod.fst (mem_kbItems.2 ⟨c, hc, hpb⟩)
    rw [h] at this
    simp at this
  cases hcv : c.valid
  · exact absurd (eq_emptyClause hprops hcv ▸ hc) hempty
  · exact Or.inl hcv

theorem sat_update_free {v : MazeProp → Bool} {p : MazeProp} {b' : Bool}
    {c : MazeClause} (hfree : ∀ b : Bool, (p, b) ∉ c.props) :
    MazeClause.Sat (Function.update v p b') c ↔ MazeClause.Sat v c := by
  unfold MazeClause.Sat
  refine or_congr Iff.rfl ⟨?_, ?_⟩ <;> rintro ⟨pb, hpb, hv⟩
  · have hne : pb.1 ≠ p := by
      intro he
      exact hfree pb.2 (by rw [← he]; simpa using hpb)
    exact ⟨pb, hpb, by rwa [Function.update_noteq hne] at hv⟩
  · have hne : pb.1 ≠ p := by
      intro he
      exact hfree pb.2 (by rw [← he]; simpa using hpb)
    exact ⟨pb, hpb, by rwa [Function.update_noteq hne]⟩

theorem not_sat_iff {v : MazeProp → Bool} {c : MazeClause} :
    ¬ MazeClause.Sat v c ↔
      c.valid = false ∧ ∀ pb ∈ c.props, v (pb : MazeProp × Bool).1 ≠ pb.2 := by
  unfold MazeClause.Sat
  push_neg
  constructor
  · rintro ⟨h1, h2⟩
    exact ⟨by cases hc : c.valid; rfl; exact absurd hc h1, h2⟩
  · rintro ⟨h1, h2⟩
    exact ⟨by rw [h1]; simp, h2⟩

/-- Model existence: a finite clause set of well-formed clauses that is
closed under `resolve` and does not contain the empty clause is
satisfiable.  (Induction on the number of distinct proposition keys:
remove one key `p`, obtain a model of the `p`-free part, and extend to
`p`; if both extensions failed, the two falsified clauses would resolve
on `p` into a `p`-free clause falsified by the inner model.) -/
theorem model_exists :
    ∀ (n : Nat) (S : Finset MazeClause),
    (atomKeys S).card ≤ n →
    (∀ c ∈ S, c.WF) →
    (∀ c1 ∈ S, ∀ c2 ∈ S, c1 ≠ c2 → MazeClause.resolve c1 c2 ⊆ S) →
    emptyClause ∉ S →
    ∃ v, StoreSat v S
  | 0, S, hcard, _, _, hempty =>
    storeSat_of_no_atoms hempty (Finset.card_eq_zero.1 (Nat.le_zero.1 hcard))
  | n + 1, S, hcard, hWF, hclosed, hempty => by
    rcases Finset.eq_empty_or_nonempty (atomKeys S) with hat | ⟨p, hp⟩
    · exact storeSat_of_no_atoms hempty hat
    -- the p-free part of S
    set T : Finset MazeClause :=
      S.filter (fun c => (p, true) ∉ c.props ∧ (p, false) ∉ c.props) with hT
    have hTsub : T ⊆ S := Finset.filter_subset _ _
    have hTfree : ∀ c ∈ T, ∀ b : Bool, (p, b) ∉ c.props := by
      intro c hc b
      have := (Finset.mem_filter.1 hc).2
      cases b
      · exact this.2
      · exact this.1
    have hTmem : ∀ c, c ∈ S → (∀ b : Bool, (p, b) ∉ c.props) → c ∈ T := by
      intro c hc hfree
      exact Finset.mem_filter.2 ⟨hc, hfree true, hfree false⟩
    have hTatoms : atomKeys T ⊆ (atomKeys S).erase p := by
      intro q hq
      obtain ⟨⟨q', b⟩, hqb, rfl⟩ := Finset.mem_image.1 hq
      obtain ⟨c, hc, hcb⟩ := mem_kbItems.1 hqb
      refine Finset.mem_erase.2 ⟨?_, Finset.mem_image_of_mem Prod.fst
        (mem_kbItems.2 ⟨c, hTsub hc, hcb⟩)⟩
      intro he
      exact hTfree c hc b (by rw [← he]; exact hcb)
    have hTcard : (atomKeys T).card ≤ n := by
      have h1 := Finset.card_le_card hTatoms
      have h2 := Finset.card_erase_of_mem hp
      omega
    have hTclosed : ∀ c1 ∈ T, ∀ c2 ∈ T, c1 ≠ c2 → MazeClause.resolve c1 c2 ⊆ T := by
      intro c1 h1 c2 h2 hne r hr
      refine hTmem r (hclosed c1 (hTsub h1) c2 (hTsub h2) hne hr) ?_
      intro b hb
      have := MazeClause.resolve_props_subset hr hb
      rcases Finset.mem_union.1 this with h | h
      · exact hTfree c1 h1 b h
      · exact hTfree c2 h2 b h
    obtain ⟨v, hv⟩ := model_exists n T hTcard
      (fun c hc => hWF c (hTsub hc)) hTclosed (fun hc => hempty (hTsub hc))
    -- try to extend v at p
    by_cases hvt : StoreSat (Function.update v p true) S
    · exact ⟨_, hvt⟩
    by_cases hvf : StoreSat (Function.update v p false) S
    · exact ⟨_, hvf⟩
    exfalso
    obtain ⟨c1, hc1, hns1⟩ : ∃ c ∈ S, ¬ MazeClause.Sat (Function.update v p true) c := by
      by_contra hcon
      push_neg at hcon
      exact hvt hcon
    obtain ⟨c2, hc2, hns2⟩ : ∃ c ∈ S, ¬ MazeClause.Sat (Function.update v p false) c := by
      by_contra hcon
      push_neg at hcon
      exact hvf hcon
    obtain ⟨hval1, hlit1⟩ := not_sat_iff.1 hns1
    obtain ⟨hval2, hlit2⟩ := not_sat_iff.1 hns2
    -- c1 must contain (p, false)
    have hpf1 : (p, false) ∈ c1.props := by
      by_cases hin : (p, false) ∈ c1.props
      · exact hin
      · exfalso
        have hnt : (p, true) ∉ c1.props := by
          intro hcon
          exact absurd (Function.update_same p true v) (hlit1 (p, true) hcon)
        have hfree : ∀ b : Bool, (p, b) ∉ c1.props := by
          intro b
          cases b
          · exact hin
          · exact hnt
        exact hns1 ((sat_update_free hfree).2 (hv c1 (hTmem c1 hc1 hfree)))
    have hpt2 : (p, true) ∈ c2.props := by
      by_cases hin : (p, true) ∈ c2.props
      · exact hin
      · exfalso
        have hnf : (p, false) ∉ c2.props := by
          intro hcon
          exact absurd (Function.update_same p false v) (hlit2 (p, false) hcon)
        have hfree : ∀ b : Bool, (p, b) ∉ c2.props := by
          intro b
          cases b
          · exact hnf
          · exact hin
        exact hns2 ((sat_update_free hfree).2 (hv c2 (hTmem c2 hc2 hfree)))
    -- off-p literals of c1 and c2 are falsified by v itself
    have hlit1' : ∀ pb ∈ c1.props, (pb : MazeProp × Bool).1 ≠ p → v pb.1 ≠ pb.2 := by
      intro pb hpb hne hcon
      exact hlit1 pb hpb (by rwa [Function.update_noteq hne])
    have hlit2' : ∀ pb ∈ c2.props, (pb : MazeProp × Bool).1 ≠ p → v pb.1 ≠ pb.2 := by
      intro pb hpb hne hcon
      exact hlit2 pb hpb (by rwa [Function.update_noteq hne])
    -- the complementary set of (c1, c2) is exactly {(p, false)}
    have hcomp : complementary c1 c2 = {(p, false)} := by
      ext pb
      rw [mem_complementary, Finset.mem_singleton]
      constructor
      · rintro ⟨hin1, hin2⟩
        by_cases hkey : (pb : MazeProp × Bool).1 = p
        · have : pb.2 = false := (hWF c1 hc1).1 pb hin1 (p, false) hpf1 hkey
          exact Prod.ext hkey this
        · exfalso
          have h1 := hlit1' pb hin1 hkey
          have h2 := hlit2' (pb.1, !pb.2) hin2 hkey
          simp only at h2
          cases hvb : v pb.1 <;> cases hb : pb.2 <;> simp_all
      · rintro rfl
        refine ⟨hpf1, ?_⟩
        simpa using hpt2
    have hcompcard : (complementary c1 c2).card = 1 := by
      rw [hcomp]
      rfl
    have hne12 : c1 ≠ c2 := by
      intro he
      have := (hWF c2 hc2).1 (p, true) hpt2 (p, false) (he ▸ hpf1) rfl
      simp at this
    obtain ⟨r, hr⟩ : ∃ r, r ∈ MazeClause.resolve c1 c2 := by
      rw [resolve_of_card_eq hcompcard]
      exact ⟨_, Finset.mem_singleton_self _⟩
    have hrS : r ∈ S := hclosed c1 hc1 c2 hc2 hne12 hr
    have hrfree : ∀ b : Bool, (p, b) ∉ r.props := by
      intro b hb
      obtain ⟨-, rfl⟩ := mem_resolve.1 hr
      have := (Finset.mem_filter.1 hb).2
      rw [hcomp] at this
      simp at this
    have hrT : r ∈ T := hTmem r hrS hrfree
    have hrsat := hv r hrT
    rcases hrsat with hval | ⟨pb, hpb, hvpb⟩
    · rw [MazeClause.resolve_valid_false hr] at hval
      cases hval
    · have hkey : (pb : MazeProp × Bool).1 ≠ p := by
        intro he
        exact hrfree pb.2 (by rw [← he]; simpa using hpb)
      have hpb12 := MazeClause.resolve_props_subset hr hpb
      rcases Finset.mem_union.1 hpb12 with h | h
      · exact hlit1' pb h hkey hvpb
      · exact hlit2' pb h hkey hvpb

end MazeKnowledgeBase

/-! ### Soundness and completeness of the ask loop -/

namespace MazeKnowledgeBase

open MazeClause

theorem storeSat_allResolvents {v : MazeProp → Bool} {temp : Finset MazeClause}
    (hWF : ∀ c ∈ temp, c.WF) (hsat : StoreSat v temp) :
    StoreSat v (allResolvents temp) := by
  intro r hr
  obtain ⟨c1, h1, c2, h2, -, hr⟩ := mem_allResolvents.1 hr
  exact MazeClause.resolve_sound (hWF c1 h1) (hWF c2 h2) hr v (hsat c1 h1) (hsat c2 h2)

theorem allResolvents_WF {temp : Finset MazeClause}
    (hWF : ∀ c ∈ temp, c.WF) : ∀ r ∈ allResolvents temp, r.WF := by
  intro r hr
  obtain ⟨c1, h1, c2, h2, -, hr⟩ := mem_allResolvents.1 hr
  exact MazeClause.resolve_WF (hWF c1 h1).1 (hWF c2 h2).1 hr

/-- If the saturation loop answers `true`, the working set is
unsatisfiable (every clause it ever adds is a logical consequence of the
working set). -/
theorem askLoop_true_unsat :
    ∀ (fuel : Nat) (temp acc : Finset MazeClause),
    (∀ c ∈ temp, c.WF) → (∀ c ∈ acc, c.WF) →
    (∀ v, StoreSat v temp → StoreSat v acc) →
    askLoop fuel temp acc = some true →
    ∀ v, ¬ StoreSat v temp
  | 0, temp, acc, _, _, _, heq => by cases heq
  | fuel + 1, temp, acc, hWFt, hWFa, hinv, heq => by
    simp only [askLoop] at heq
    by_cases h1 : emptyClause ∈ allResolvents temp
    · intro v hsat
      exact not_sat_emptyClause v (storeSat_allResolvents hWFt hsat emptyClause h1)
    · rw [if_neg h1] at heq
      by_cases h2 : acc ∪ allResolvents temp ⊆ temp
      · rw [if_pos h2] at heq
        cases heq
      · rw [if_neg h2] at heq
        intro v hsat
        have hWFacc2 : ∀ c ∈ acc ∪ allResolvents temp, c.WF := by
          intro c hc
          rcases Finset.mem_union.1 hc with h | h
          · exact hWFa c h
          · exact allResolvents_WF hWFt c h
        have hWFt2 : ∀ c ∈ temp ∪ (acc ∪ allResolvents temp), c.WF := by
          intro c hc
          rcases Finset.mem_union.1 hc with h | h
          · exact hWFt c h
          · exact hWFacc2 c h
        have hinv2 : ∀ w, StoreSat w (temp ∪ (acc ∪ allResolvents temp)) →
            StoreSat w (acc ∪ allResolvents temp) := by
          intro w hw c hc
          exact hw c (Finset.mem_union_right _ hc)
        refine askLoop_true_unsat fuel _ _ hWFt2 hWFacc2 hinv2 heq v ?_
        intro c hc
        rcases Finset.mem_union.1 hc with h | h
        · exact hsat c h
        · rcases Finset.mem_union.1 h with h' | h'
          · exact hinv v hsat c h'
          · exact storeSat_allResolvents hWFt hsat c h'

/-- If the saturation loop answers `false`, the working set has
saturated without a contradiction and is therefore satisfiable. -/
theorem askLoop_false_sat :
    ∀ (fuel : Nat) (temp acc : Finset MazeClause),
    (∀ c ∈ temp, c.WF) → (∀ c ∈ acc, c.WF) →
    emptyClause ∉ temp → emptyClause ∉ acc →
    askLoop fuel temp acc = some false →
    ∃ v, StoreSat v temp
  | 0, temp, acc, _, _, _, _, heq => by cases heq
  | fuel + 1, temp, acc, hWFt, hWFa, hne, hnacc, heq => by
    simp only [askLoop] at heq
    by_cases h1 : emptyClause ∈ allResolvents temp
    · rw [if_pos h1] at heq
      cases heq
    · rw [if_neg h1] at heq
      by_cases h2 : acc ∪ allResolvents temp ⊆ temp
      · -- saturated: temp is closed under resolution and contains no ⊥
        have hclosed : ∀ c1 ∈ temp, ∀ c2 ∈ temp, c1 ≠ c2 →
            MazeClause.resolve c1 c2 ⊆ temp := by
          intro c1 hc1 c2 hc2 hne12 r hr
          exact (Finset.union_subset_iff.1 h2).2
            (mem_allResolvents.2 ⟨c1, hc1, c2, hc2, hne12, hr⟩)
        exact model_exists (atomKeys temp).card temp le_rfl hWFt hclosed hne
      · rw [if_neg h2] at heq
        have hWFacc2 : ∀ c ∈ acc ∪ allResolvents temp, c.WF := by
          intro c hc
          rcases Finset.mem_union.1 hc with h | h
          · exact hWFa c h
          · exact allResolvents_WF hWFt c h
        have hWFt2 : ∀ c ∈ temp ∪ (acc ∪ allResolvents temp), c.WF := by
          intro c hc
          rcases Finset.mem_union.1 hc with h | h
          · exact hWFt c h
          · exact hWFacc2 c h
        have hnacc2 : emptyClause ∉ acc ∪ allResolvents temp := by
          intro hc
          rcases Finset.mem_union.1 hc with h | h
          · exact hnacc h
          · exact h1 h
        have hne2 : emptyClause ∉ temp ∪ (acc ∪ allResolvents temp) := by
          intro hc
          rcases Finset.mem_union.1 hc with h | h
          · exact hne h
          · exact hnacc2 h
        obtain ⟨v, hv⟩ := askLoop_false_sat fuel _ _ hWFt2 hWFacc2 hne2 hnacc2 heq
        exact ⟨v, fun c hc => hv c (Finset.mem_union_left _ hc)⟩

end MazeKnowledgeBase

/-! ### ask = entailment for single-literal queries -/

namespace MazeKnowledgeBase

open MazeClause

theorem unit_query_shape {q : MazeClause} (hWF : q.WF) (hcard : q.props.card = 1) :
    ∃ p b, q.props = {(p, b)} ∧ q.valid = false := by
  obtain ⟨⟨p, b⟩, hq⟩ := Finset.card_eq_one.1 hcard
  refine ⟨p, b, hq, ?_⟩
  cases hv : q.valid
  · rfl
  · have h0 := hWF.2 hv
    rw [h0] at hq
    exact absurd hq.symm (Finset.singleton_ne_empty _)

theorem negated_unit_props {q : MazeClause} {p : MazeProp} {b : Bool}
    (hprops : q.props = {(p, b)}) : (negated q).props = {(p, !b)} := by
  simp [negated, hprops]

theorem negated_unit_WF {q : MazeClause} {p : MazeProp} {b : Bool}
    (hprops : q.props = {(p, b)}) : (negated q).WF := by
  constructor
  · intro pb1 h1 pb2 h2 _
    rw [negated_unit_props hprops] at h1 h2
    rw [Finset.mem_singleton.1 h1, Finset.mem_singleton.1 h2]
  · intro hv
    cases hv

/-- For a single-literal query, the literal-by-literal flip performed by
`ask` is the exact logical negation. -/
theorem sat_negated_unit {q : MazeClause} {p : MazeProp} {b : Bool}
    (hprops : q.props = {(p, b)}) (hval : q.valid = false) (v : MazeProp → Bool) :
    MazeClause.Sat v (negated q) ↔ ¬ MazeClause.Sat v q := by
  unfold MazeClause.Sat
  rw [negated_unit_props hprops]
  simp only [negated, hval, hprops]
  cases b <;> cases hb : v p <;> simp_all

/-- `ask` is equivalent to entailment for well-formed stores that do not
contain the empty clause and single-literal queries: soundness from
`askLoop_true_unsat`, completeness from `askLoop_false_sat` +
`model_exists`. -/
theorem ask_iff_entails (kb : Finset MazeClause) (q : MazeClause)
    (hWF : ∀ c ∈ kb, c.WF) (hne : emptyClause ∉ kb)
    (hqWF : q.WF) (hunit : q.props.card = 1) :
    (ask kb q = true ↔ Entails kb q) := by
  obtain ⟨p, b, hprops, hval⟩ := unit_query_shape hqWF hunit
  have hWFt : ∀ c ∈ insert (negated q) kb, c.WF := by
    intro c hc
    rcases Finset.mem_insert.1 hc with rfl | hc
    · exact negated_unit_WF hprops
    · exact hWF c hc
  have hne0 : emptyClause ∉ insert (negated q) kb := by
    intro h
    rcases Finset.mem_insert.1 h with h | h
    · have := congrArg MazeClause.props h
      rw [negated_unit_props hprops] at this
      exact absurd this.symm (Finset.singleton_ne_empty _)
    · exact hne h
  obtain ⟨bb, hbb⟩ := askRaw_isSome kb q
  have hask : ask kb q = bb := by rw [ask, hbb]; rfl
  rw [askRaw] at hbb
  cases bb
  · obtain ⟨v, hv⟩ := askLoop_false_sat _ _ _ hWFt (by simp) hne0 (by simp) hbb
    rw [hask]
    refine iff_of_false (by simp) ?_
    intro hent
    have hkb : StoreSat v kb := fun c hc => hv c (Finset.mem_insert_of_mem hc)
    have hnegq : MazeClause.Sat v (negated q) := hv _ (Finset.mem_insert_self _ _)
    exact (sat_negated_unit hprops hval v).1 hnegq (hent v hkb)
  · have huns := askLoop_true_unsat _ _ _ hWFt (by simp)
      (by intro v _ c hc; exact absurd hc (by simp)) hbb
    rw [hask]
    refine iff_of_true rfl ?_
    intro v hkb
    by_contra hq
    refine huns v ?_
    intro c hc
    rcases Finset.mem_insert.1 hc with rfl | hc
    · exact (sat_negated_unit hprops hval v).2 hq
    · exact hkb c hc

end MazeKnowledgeBase

/-! ### Simplification lemmas -/

namespace MazeKnowledgeBase

open MazeClause

theorem sani_clause_eq (loc : Int × Int) (isPit : Bool) :
    sani_clause loc isPit = ⟨{(("P", loc), isPit)}, false⟩ := by
  simp [sani_clause, construct, buildProps]

theorem mem_passAdds {s : Finset MazeClause} {loc : Int × Int} {isPit : Bool}
    {r : MazeClause} :
    r ∈ passAdds s loc isPit ↔
      ∃ c ∈ s, c.props.card ≠ 1 ∧ r ∈ MazeClause.resolve c (sani_clause loc isPit) := by
  simp only [passAdds, Finset.mem_biUnion]
  constructor
  · rintro ⟨c, hc, hr⟩
    by_cases h : c.props.card = 1
    · rw [if_pos h] at hr
      simp at hr
    · rw [if_neg h] at hr
      exact ⟨c, hc, h, hr⟩
  · rintro ⟨c, hc, h, hr⟩
    exact ⟨c, hc, by rw [if_neg h]; exact hr⟩

/-- When no clause of the iteration triggers the subsumption `break`,
the loop of `get_simplified_clauses` removes nothing and accumulates
exactly the per-clause resolvents — independently of iteration order. -/
theorem simpLoop_no_break :
    ∀ (l : List MazeClause) (loc : Int × Int) (isPit : Bool),
    (∀ c ∈ l, ¬(c.props.card ≠ 1 ∧ c.get_prop ("P", loc) = some isPit)) →
    simpLoop loc isPit l = (passAdds l.toFinset loc isPit, ∅)
  | [], loc, isPit, _ => by simp [simpLoop, passAdds]
  | c :: rest, loc, isPit, hnb => by
    have hrest : ∀ c' ∈ rest,
        ¬(c'.props.card ≠ 1 ∧ c'.get_prop ("P", loc) = some isPit) :=
      fun c' hc' => hnb c' (List.mem_cons_of_mem _ hc')
    by_cases hcard : c.props.card = 1
    · rw [simpLoop, if_pos hcard, simpLoop_no_break rest loc isPit hrest]
      have : passAdds (c :: rest).toFinset loc isPit = passAdds rest.toFinset loc isPit := by
        simp only [List.toFinset_cons, passAdds, Finset.biUnion_insert, if_pos hcard]
        rw [Finset.empty_union]
      rw [this]
    · have hget : ¬ c.get_prop ("P", loc) = some isPit := by
        intro hcon
        exact hnb c (List.mem_cons_self _ _) ⟨hcard, hcon⟩
      rw [simpLoop, if_neg hcard, if_neg hget, simpLoop_no_break rest loc isPit hrest]
      simp only [List.toFinset_cons, passAdds, Finset.biUnion_insert, if_neg hcard]
      rw [Finset.union_comm]

/-- A clause produced by resolution against the unit fact of `loc` does
not mention `loc`'s proposition at all. -/
theorem resolve_sani_key_free {c : MazeClause} {loc : Int × Int} {isPit : Bool}
    {r : MazeClause} (hr : r ∈ MazeClause.resolve c (sani_clause loc isPit)) :
    ∀ b : Bool, (("P", loc), b) ∉ r.props := by
  intro b hb
  obtain ⟨hcard, rfl⟩ := mem_resolve.1 hr
  have hkeys := (Finset.mem_filter.1 hb).2
  apply hkeys
  have hsub : complementary c (sani_clause loc isPit) ⊆ {(("P", loc), !isPit)} := by
    intro pb hpb
    obtain ⟨h1, h2⟩ := mem_complementary.1 hpb
    rw [sani_clause_eq] at h2
    have h2' : (pb.1, !pb.2) = (("P", loc), isPit) := Finset.mem_singleton.1 h2
    have hk : pb.1 = ("P", loc) := congrArg Prod.fst h2'
    have hv : (!pb.2) = isPit := congrArg Prod.snd h2'
    rw [Finset.mem_singleton]
    refine Prod.ext hk ?_
    cases hpb2 : pb.2 <;> rw [hpb2] at hv <;> rw [← hv]
    · rfl
    · rfl
  obtain ⟨pb0, hpb0⟩ := Finset.card_eq_one.1 hcard
  have : pb0 ∈ ({(("P", loc), !isPit)} : Finset (MazeProp × Bool)) := by
    exact hsub (hpb0 ▸ Finset.mem_singleton_self pb0)
  rw [Finset.mem_singleton] at this
  rw [hpb0, this]
  simp

theorem get_prop_of_key_free {c : MazeClause} {p : MazeProp}
    (hfree : ∀ b : Bool, (p, b) ∉ c.props) : c.get_prop p = none := by
  unfold get_prop
  rw [if_neg (hfree true), if_neg (hfree false)]

/-- A clause not mentioning `loc`'s proposition has no complementary
pair with the unit fact, so it produces no further resolvents. -/
theorem resolve_sani_of_key_free {c : MazeClause} {loc : Int × Int} {isPit : Bool}
    (hfree : ∀ b : Bool, (("P", loc), b) ∉ c.props) :
    MazeClause.resolve c (sani_clause loc isPit) = ∅ := by
  apply resolve_of_card_ne
  have hempty : complementary c (sani_clause loc isPit) = ∅ := by
    rw [Finset.eq_empty_iff_forall_not_mem]
    intro pb hpb
    obtain ⟨h1, h2⟩ := mem_complementary.1 hpb
    rw [sani_clause_eq] at h2
    have h2' : (pb.1, !pb.2) = (("P", loc), isPit) := Finset.mem_singleton.1 h2
    have hk : pb.1 = ("P", loc) := congrArg Prod.fst h2'
    apply hfree pb.2
    rw [← hk]
    simpa using h1
  rw [hempty]
  simp

/-- If no stored clause of length ≥ 2 contains the unit fact as a
disjunct (so the removal `break` never fires), one pass of
`get_simplified_clauses` is the original set plus the per-clause
resolvents. -/
theorem get_simplified_no_break {S : Finset MazeClause} {loc : Int × Int}
    {isPit : Bool} {order : List MazeClause}
    (henum : Enumerates order S)
    (hnb : ∀ c ∈ S, ¬(c.props.card ≠ 1 ∧ c.get_prop ("P", loc) = some isPit)) :
    get_simplified_clauses S order loc isPit = S ∪ passAdds S loc isPit := by
  have hl : ∀ c ∈ order, ¬(c.props.card ≠ 1 ∧ c.get_prop ("P", loc) = some isPit) := by
    intro c hc
    exact hnb c (henum.2 ▸ List.mem_toFinset.2 hc)
  rw [get_simplified_clauses, simpLoop_no_break order loc isPit hl, henum.2]
  simp

theorem passAdds_union (s t : Finset MazeClause) (loc : Int × Int) (isPit : Bool) :
    passAdds (s ∪ t) loc isPit = passAdds s loc isPit ∪ passAdds t loc isPit := by
  ext r
  simp only [passAdds, Finset.mem_biUnion, Finset.mem_union]
  constructor
  · rintro ⟨c, hc | hc, hr⟩
    · exact Or.inl ⟨c, hc, hr⟩
    · exact Or.inr ⟨c, hc, hr⟩
  · rintro (⟨c, hc, hr⟩ | ⟨c, hc, hr⟩)
    · exact ⟨c, Or.inl hc, hr⟩
    · exact ⟨c, Or.inr hc, hr⟩

/-- Resolvents of a break-free pass are themselves inert under the same
pass: they do not mention the location's proposition. -/
theorem passAdds_passAdds (S : Finset MazeClause) (loc : Int × Int) (isPit : Bool) :
    passAdds (passAdds S loc isPit) loc isPit = ∅ := by
  rw [Finset.eq_empty_iff_forall_not_mem]
  intro r hr
  obtain ⟨c, hc, -, hr⟩ := mem_passAdds.1 hr
  obtain ⟨c0, -, -, hc0⟩ := mem_passAdds.1 hc
  rw [resolve_sani_of_key_free (resolve_sani_key_free hc0)] at hr
  simp at hr

/-- Amended idempotence: when no stored clause of length ≥ 2 contains
the known fact as a disjunct, a second identical single-location
simplification pass leaves the store unchanged. -/
theorem get_simplified_idempotent {S : Finset MazeClause} {loc : Int × Int}
    {isPit : Bool} {o1 o2 : List MazeClause}
    (hnb : ∀ c ∈ S, ¬(c.props.card ≠ 1 ∧ c.get_prop ("P", loc) = some isPit))
    (h1 : Enumerates o1 S)
    (h2 : Enumerates o2 (get_simplified_clauses S o1 loc isPit)) :
    get_simplified_clauses (get_simplified_clauses S o1 loc isPit) o2 loc isPit
      = get_simplified_clauses S o1 loc isPit := by
  have hS1 : get_simplified_clauses S o1 loc isPit = S ∪ passAdds S loc isPit :=
    get_simplified_no_break h1 hnb
  have hfree : ∀ r ∈ passAdds S loc isPit, ∀ b : Bool, (("P", loc), b) ∉ r.props := by
    intro r hr
    obtain ⟨c, -, -, hr⟩ := mem_passAdds.1 hr
    exact resolve_sani_key_free hr
  have hnb1 : ∀ c ∈ S ∪ passAdds S loc isPit,
      ¬(c.props.card ≠ 1 ∧ c.get_prop ("P", loc) = some isPit) := by
    intro c hc
    rcases Finset.mem_union.1 hc with h | h
    · exact hnb c h
    · rintro ⟨-, hget⟩
      rw [get_prop_of_key_free (hfree c h)] at hget
      cases hget
  rw [hS1] at h2 ⊢
  rw [get_simplified_no_break h2 hnb1, passAdds_union, passAdds_passAdds]
  have hinert : ∀ r ∈ passAdds S loc isPit,
      MazeClause.resolve r (sani_clause loc isPit) = ∅ := by
    intro r hr
    exact resolve_sani_of_key_free (hfree r hr)
  rw [Finset.union_empty]
  rw [Finset.union_assoc, Finset.union_idempotent]

end MazeKnowledgeBase

/-! ### Auxiliary: an enumeration of a singleton set is forced -/

namespace MazeKnowledgeBase

theorem enumerates_singleton {c : MazeClause} {l : List MazeClause}
    (h : Enumerates l {c}) : l = [c] := by
  obtain ⟨hnd, hto⟩ := h
  cases l with
  | nil =>
    rw [List.toFinset_nil] at hto
    exact absurd hto.symm (Finset.singleton_ne_empty c)
  | cons a t =>
    cases t with
    | nil =>
      have ha : a ∈ ({c} : Finset MazeClause) := by
        rw [← hto]
        simp
      rw [Finset.mem_singleton.1 ha]
    | cons b u =>
      exfalso
      have ha : a ∈ ({c} : Finset MazeClause) := by
        rw [← hto]
        simp
      have hb : b ∈ ({c} : Finset MazeClause) := by
        rw [← hto]
        simp
      have hab : a = b :=
        (Finset.mem_singleton.1 ha).trans (Finset.mem_singleton.1 hb).symm
      exact (List.nodup_cons.1 hnd).1 (by rw [hab]; exact List.mem_cons_self b u)

end MazeKnowledgeBase

/-! ### Claim theorems -/

/-- C1 (amended): for a store of well-formed clauses that does not
contain the empty clause and a single-literal query, `ask` returns
`true` if and only if the conjunction of the store's clauses entails the
query; for multi-literal queries the literal-by-literal flip
under-approximates the negation and `ask` can answer `false` on an
entailed query (see the counterexample). -/
theorem claim_C1_ask_iff_entails_unit (kb : Finset MazeClause) (q : MazeClause)
    (hWF : ∀ c ∈ kb, c.WF) (hne : MazeClause.emptyClause ∉ kb)
    (hqWF : q.WF) (hunit : q.props.card = 1) :
    (MazeKnowledgeBase.ask kb q = true ↔ MazeKnowledgeBase.Entails kb q) :=
  MazeKnowledgeBase.ask_iff_entails kb q hWF hne hqWF hunit

/-- C1 witness: the concrete store `{P(1,1)}` with query `P(1,1)`
satisfies the hypotheses, and the theorem yields its entailment. -/
theorem claim_C1_witness :
    ((∀ c ∈ ({ex_unit11} : Finset MazeClause), c.WF) ∧
     MazeClause.emptyClause ∉ ({ex_unit11} : Finset MazeClause) ∧
     ex_unit11.WF ∧ ex_unit11.props.card = 1) ∧
    (MazeKnowledgeBase.ask {ex_unit11} ex_unit11 = true ↔
      MazeKnowledgeBase.Entails {ex_unit11} ex_unit11) :=
  ⟨⟨by decide, by decide, by decide, by decide⟩,
   claim_C1_ask_iff_entails_unit {ex_unit11} ex_unit11
     (by decide) (by decide) (by decide) (by decide)⟩

/-- C1 counterexample: the store `{P(1,1)}` entails the two-literal
query clause `P(1,1) ∨ P(2,1)`, yet `ask` answers `false`, because the
"negated query" `¬P(1,1) ∨ ¬P(2,1)` built by flipping each literal is
not the negation of the query. -/
theorem claim_C1_counterexample :
    MazeKnowledgeBase.Entails {ex_unit11} ex_c11or21 ∧
    MazeKnowledgeBase.ask {ex_unit11} ex_c11or21 = false := by
  constructor
  · intro v hv
    have hA := hv ex_unit11 (Finset.mem_singleton_self _)
    rcases hA with h | ⟨pb, hpb, hvpb⟩
    · have hval : ex_unit11.valid = false := by decide
      rw [hval] at h
      cases h
    · have hprops : ex_unit11.props = {(p11, true)} := by decide
      rw [hprops, Finset.mem_singleton] at hpb
      subst hpb
      right
      exact ⟨(p11, true), by decide, hvpb⟩
  · decide

/-- C2: `resolve` returns the empty set when the number of complementary
propositions is not exactly one; when it is exactly one, it returns
exactly one resolvent — the clause whose props are the union of the two
proposition mappings with the complementary proposition's key removed
and whose `valid` flag is `false`.  (The merged remainder keeps one
polarity per key, so it can never be a tautology: the claim's
"tautological remainder" escape clause never fires, vacuously
preserving it.) -/
theorem claim_C2_resolve_cases (c1 c2 : MazeClause) :
    ((MazeClause.complementary c1 c2).card ≠ 1 → MazeClause.resolve c1 c2 = ∅) ∧
    ((MazeClause.complementary c1 c2).card = 1 →
      MazeClause.resolve c1 c2 =
        {⟨(c1.props ∪ c2.props).filter
            (fun pb => pb.1 ∉ (MazeClause.complementary c1 c2).image Prod.fst),
          false⟩}) :=
  ⟨fun h => MazeClause.resolve_of_card_ne h,
   fun h => by
    rw [MazeClause.resolve_of_card_eq h, MazeClause.merge_filter_eq_union_filter]⟩

/-- C2 witness: a resolving pair (`P(1,1) ∨ P(2,1)` with
`¬P(2,1) ∨ P(3,3)`) and a non-resolving pair (`P(1,1)` with `P(2,1)`). -/
theorem claim_C2_witness :
    ((MazeClause.complementary ex_c11or21 ex_not21or33).card = 1 ∧
      MazeClause.resolve ex_c11or21 ex_not21or33 =
        {⟨(ex_c11or21.props ∪ ex_not21or33.props).filter
            (fun pb => pb.1 ∉
              (MazeClause.complementary ex_c11or21 ex_not21or33).image Prod.fst),
          false⟩}) ∧
    ((MazeClause.complementary ex_unit11 ex_q21).card ≠ 1 ∧
      MazeClause.resolve ex_unit11 ex_q21 = ∅) :=
  ⟨⟨by decide, (claim_C2_resolve_cases ex_c11or21 ex_not21or33).2 (by decide)⟩,
   ⟨by decide, (claim_C2_resolve_cases ex_unit11 ex_q21).1 (by decide)⟩⟩

/-- C3: `ask` terminates on every store and query: the saturation loop,
run with the fuel chosen in `askRaw`, always reaches a definite answer
(each round either returns or strictly enlarges a working set bounded by
the finite universe of clauses over the store's propositions). -/
theorem claim_C3_ask_terminates (kb : Finset MazeClause) (q : MazeClause) :
    ∃ b : Bool, MazeKnowledgeBase.askRaw kb q = some b :=
  MazeKnowledgeBase.askRaw_isSome kb q

/-- C4 (amended): two clauses with the same proposition key set and the
same `valid` flag always compare equal under `__eq__` (polarities are
ignored by equality), but `__hash__` is computed from the full
(proposition, polarity) item set, so their hashes are guaranteed to
agree only when the full item sets coincide. -/
theorem claim_C4_eq_ignores_polarity_hash_does_not (c1 c2 : MazeClause) :
    (MazeClause.pyEq c1 c2 = true ↔
      (MazeClause.pyKeys c1 = MazeClause.pyKeys c2 ∧ c1.valid = c2.valid)) ∧
    (MazeClause.pyHashKey c1 = MazeClause.pyHashKey c2 ↔
      (c1.props = c2.props ∧ c1.valid = c2.valid)) := by
  constructor
  · simp [MazeClause.pyEq]
  · simp [MazeClause.pyHashKey, Prod.ext_iff]

/-- C4 counterexample: `P(1,1)` and `¬P(1,1)` have the same key set and
`valid` flag and compare equal under `__eq__`, but the inputs to the
hash computation differ (the item sets carry opposite polarities), so
equal hash values are not guaranteed. -/
theorem claim_C4_counterexample :
    MazeClause.pyKeys ex_unit11 = MazeClause.pyKeys ex_not11 ∧
    ex_unit11.valid = ex_not11.valid ∧
    MazeClause.pyEq ex_unit11 ex_not11 = true ∧
    MazeClause.pyHashKey ex_unit11 ≠ MazeClause.pyHashKey ex_not11 := by
  decide

/-- C5: any constructor input containing some proposition with both
polarities yields a clause with `is_valid() = true` and an empty
proposition mapping. -/
theorem claim_C5_tautology_collapse (l : List (MazeProp × Bool)) (p : MazeProp)
    (h1 : (p, true) ∈ l) (h2 : (p, false) ∈ l) :
    (MazeClause.construct l).is_valid = true ∧ (MazeClause.construct l).props = ∅ := by
  have h := MazeClause.buildProps_valid l ∅
    (fun pb1 hpb1 pb2 hpb2 hk => absurd hpb1 (Finset.not_mem_empty _))
    p (Or.inl h1) (Or.inl h2)
  rw [MazeClause.construct, h]
  exact ⟨rfl, rfl⟩

/-- C5 witness: the input `[P(1,1), P(3,3), ¬P(1,1)]` collapses to the
valid clause with no stored propositions. -/
theorem claim_C5_witness :
    ((p11, true) ∈ ex_taut_list ∧ (p11, false) ∈ ex_taut_list) ∧
    ((MazeClause.construct ex_taut_list).is_valid = true ∧
      (MazeClause.construct ex_taut_list).props = ∅) :=
  ⟨⟨by decide, by decide⟩,
   claim_C5_tautology_collapse ex_taut_list p11 (by decide) (by decide)⟩

/-- C6 (amended): on the store `{P(1,1) ∨ ¬P(2,1)}` with
`known_pits = {(1,1)}` and `known_safe = {}`, the simplification pass
removes the subsumed clause, leaving the empty store; the result is
equivalent to the original store only modulo the known fact: under any
valuation satisfying `P(1,1)`, the new store and the original store are
equivalent.  (Without assuming `P(1,1)` they are not equivalent — see
the counterexample.) -/
theorem claim_C6_simplify_example (ord : List MazeClause)
    (h : MazeKnowledgeBase.Enumerates ord {ex_c11orNot21}) :
    MazeKnowledgeBase.simplify_locs {ex_c11orNot21} [(((1, 1), true), ord)] = ∅ ∧
    (∀ v, MazeClause.Sat v (MazeKnowledgeBase.sani_clause (1, 1) true) →
      (MazeKnowledgeBase.StoreSat v
          (MazeKnowledgeBase.simplify_locs {ex_c11orNot21} [(((1, 1), true), ord)]) ↔
        MazeKnowledgeBase.StoreSat v {ex_c11orNot21})) := by
  have hord : ord = [ex_c11orNot21] := MazeKnowledgeBase.enumerates_singleton h
  subst hord
  have he : MazeKnowledgeBase.simplify_locs {ex_c11orNot21}
      [(((1, 1), true), [ex_c11orNot21])] = ∅ := by decide
  refine ⟨he, ?_⟩
  intro v hv
  rw [he]
  constructor
  · intro _ c hc
    rw [Finset.mem_singleton] at hc
    subst hc
    right
    refine ⟨(p11, true), by decide, ?_⟩
    rcases hv with h' | ⟨pb, hpb, hvpb⟩
    · have : (MazeKnowledgeBase.sani_clause (1, 1) true).valid = false := by decide
      rw [this] at h'
      cases h'
    · have hp : (MazeKnowledgeBase.sani_clause (1, 1) true).props = {(p11, true)} := by
        decide
      rw [hp, Finset.mem_singleton] at hpb
      subst hpb
      exact hvpb
  · intro _ c hc
    exact absurd hc (Finset.not_mem_empty c)

/-- C6 witness: the forced enumeration of the singleton store. -/
theorem claim_C6_witness :
    MazeKnowledgeBase.Enumerates [ex_c11orNot21] {ex_c11orNot21} ∧
    (MazeKnowledgeBase.simplify_locs {ex_c11orNot21}
        [(((1, 1), true), [ex_c11orNot21])] = ∅ ∧
      (∀ v, MazeClause.Sat v (MazeKnowledgeBase.sani_clause (1, 1) true) →
        (MazeKnowledgeBase.StoreSat v
            (MazeKnowledgeBase.simplify_locs {ex_c11orNot21}
              [(((1, 1), true), [ex_c11orNot21])]) ↔
          MazeKnowledgeBase.StoreSat v {ex_c11orNot21}))) :=
  ⟨by decide, claim_C6_simplify_example [ex_c11orNot21] (by decide)⟩

/-- C6 counterexample: after the pass the store is empty, which is not
logically equivalent to the original store conjoined with the unit fact
`P(1,1)`: the all-false valuation satisfies the empty store but not
`P(1,1)`. -/
theorem claim_C6_counterexample :
    MazeKnowledgeBase.simplify_locs {ex_c11orNot21}
        [(((1, 1), true), [ex_c11orNot21])] = ∅ ∧
    ¬ (∀ v, MazeKnowledgeBase.StoreSat v
          (MazeKnowledgeBase.simplify_locs {ex_c11orNot21}
            [(((1, 1), true), [ex_c11orNot21])]) ↔
        (MazeKnowledgeBase.StoreSat v {ex_c11orNot21} ∧
          MazeClause.Sat v (MazeKnowledgeBase.sani_clause (1, 1) true))) := by
  have he : MazeKnowledgeBase.simplify_locs {ex_c11orNot21}
      [(((1, 1), true), [ex_c11orNot21])] = ∅ := by decide
  refine ⟨he, fun hcon => ?_⟩
  have hsat : MazeKnowledgeBase.StoreSat (fun _ => false)
      (MazeKnowledgeBase.simplify_locs {ex_c11orNot21}
        [(((1, 1), true), [ex_c11orNot21])]) := by
    rw [he]
    intro c hc
    exact absurd hc (Finset.not_mem_empty c)
  have h2 := (hcon (fun _ => false)).1 hsat
  exact (by decide :
    ¬ MazeClause.Sat (fun _ => false) (MazeKnowledgeBase.sani_clause (1, 1) true)) h2.2

/-- C7 (amended): a second identical simplification call is not a no-op
in general — each per-location pass removes at most one subsumed clause,
so a second call can remove another (see the counterexample).  When the
known-location set is a single location and no stored clause of length
≥ 2 contains the corresponding unit fact as a disjunct (so the removal
`break` never fires), the first call reaches a fixpoint and the second
call returns the store unchanged. -/
theorem claim_C7_simplify_idempotent_no_subsumption
    (S : Finset MazeClause) (loc : Int × Int) (isPit : Bool)
    (o1 o2 : List MazeClause)
    (hnb : ∀ c ∈ S, ¬(c.props.card ≠ 1 ∧ c.get_prop ("P", loc) = some isPit))
    (h1 : MazeKnowledgeBase.Enumerates o1 S)
    (h2 : MazeKnowledgeBase.Enumerates o2
      (MazeKnowledgeBase.simplify_locs S [((loc, isPit), o1)])) :
    MazeKnowledgeBase.simplify_locs
        (MazeKnowledgeBase.simplify_locs S [((loc, isPit), o1)]) [((loc, isPit), o2)]
      = MazeKnowledgeBase.simplify_locs S [((loc, isPit), o1)] :=
  MazeKnowledgeBase.get_simplified_idempotent hnb h1 h2

/-- C7 witness: the store `{¬P(1,1) ∨ P(2,1)}` with `known_pits =
{(1,1)}`: the first call adds the resolvent `P(2,1)` and the second call
changes nothing. -/
theorem claim_C7_witness :
    ((∀ c ∈ ({ex_not11or21} : Finset MazeClause),
        ¬(c.props.card ≠ 1 ∧ c.get_prop ("P", (1, 1)) = some true)) ∧
      MazeKnowledgeBase.Enumerates [ex_not11or21] {ex_not11or21} ∧
      MazeKnowledgeBase.Enumerates [ex_not11or21, ex_q21]
        (MazeKnowledgeBase.simplify_locs {ex_not11or21}
          [(((1, 1), true), [ex_not11or21])])) ∧
    MazeKnowledgeBase.simplify_locs
        (MazeKnowledgeBase.simplify_locs {ex_not11or21}
          [(((1, 1), true), [ex_not11or21])])
        [(((1, 1), true), [ex_not11or21, ex_q21])]
      = MazeKnowledgeBase.simplify_locs {ex_not11or21}
          [(((1, 1), true), [ex_not11or21])] :=
  ⟨⟨by decide, by decide, by decide⟩,
   claim_C7_simplify_idempotent_no_subsumption {ex_not11or21} (1, 1) true
     [ex_not11or21] [ex_not11or21, ex_q21] (by decide) (by decide) (by decide)⟩

/-- C7 counterexample: on the store `{P(1,1) ∨ P(2,2), P(1,1) ∨ P(3,3)}`
with `known_pits = {(1,1)}`, the first call removes only the first
subsumed clause (the loop breaks), and the second identical call removes
the second: the store changes again, so the first call is not a
fixpoint. -/
theorem claim_C7_counterexample :
    MazeKnowledgeBase.Enumerates [ex_c11or22, ex_c11or33] {ex_c11or22, ex_c11or33} ∧
    MazeKnowledgeBase.Enumerates [ex_c11or33]
      (MazeKnowledgeBase.simplify_locs {ex_c11or22, ex_c11or33}
        [(((1, 1), true), [ex_c11or22, ex_c11or33])]) ∧
    MazeKnowledgeBase.simplify_locs
        (MazeKnowledgeBase.simplify_locs {ex_c11or22, ex_c11or33}
          [(((1, 1), true), [ex_c11or22, ex_c11or33])])
        [(((1, 1), true), [ex_c11or33])]
      ≠ MazeKnowledgeBase.simplify_locs {ex_c11or22, ex_c11or33}
          [(((1, 1), true), [ex_c11or22, ex_c11or33])] := by
  decide

/-- C8: on the store `{P(1,1) ∨ P(2,1), ¬P(1,1)}`, `ask(P(2,1))`
returns `true`. -/
theorem claim_C8_entailment_example :
    MazeKnowledgeBase.ask {ex_c11or21, ex_not11} ex_q21 = true := by
  decide

/-- C9: the `ask` method never mutates the store: it reads
`self.clauses` only to build its private working copy, and the store
after the call holds exactly the clauses it held before. -/
theorem claim_C9_ask_preserves_store (kb : MazeKB) (q : MazeClause) :
    ((MazeKB.askMethod kb q).2).clauses = kb.clauses := rfl

/-- C10: `resolve` is commutative: although the implementation merges
the two proposition mappings in argument order, the two mappings can
only disagree on complementary keys, which the merge deletes, so the
returned sets of resolvents coincide. -/
theorem claim_C10_resolve_comm (c1 c2 : MazeClause) :
    MazeClause.resolve c1 c2 = MazeClause.resolve c2 c1 :=
  MazeClause.resolve_comm c1 c2
